import Mathlib

/-!
Shallow embedding of `apply_my_lists.go`.

Domains are modelled as Go strings, i.e. lists of characters.  The program
canonicalizes every raw domain by prepending a dot (`readList`, `readDomains`),
so that "B is an ancestor of A" is decided by `strings.HasSuffix` on the
canonical forms.  The partitioned block set `domainsRaw :
map[string]map[string]bool` is modelled as an association list from top-level
keys to (duplicate-free) lists of domains; Go map iteration order is modelled
by the list order where it matters, and by order-independent aggregates
(`filter`, `any`) where the Go loop's net effect is order-independent.
-/

/-- Characters of a Go string. -/
abbrev Str : Type := List Char

/-- Canonical form of a raw domain: `readList` and `readDomains` prepend a dot
to every raw domain name so that subdomain matching is a plain suffix test. -/
def canon (s : String) : Str := '.' :: s.toList

/-- Go `strings.HasSuffix(s, suffix)`. -/
def hasSuffix (s suffix : Str) : Bool := suffix.isSuffixOf s

/-- Extend the first component of a split with one more character. -/
def consHead (c : Char) : List Str → List Str
  | [] => [[c]]
  | l :: ls => (c :: l) :: ls

/-- Go `strings.Split(domain, ".")`: the dot-separated components of a string
(empty components included, as in Go). -/
def splitOnDot : Str → List Str
  | [] => [[]]
  | c :: rest =>
    if c = '.' then [] :: splitOnDot rest
    else consHead c (splitOnDot rest)

/-- Inverse of `splitOnDot`: rejoin components with dots (Go would write
`strings.Join(components, ".")`); used to state injectivity of the split. -/
def joinDot : List Str → Str
  | [] => []
  | [l] => l
  | l :: ls => l ++ '.' :: joinDot ls

/-- The body of Go `getTLD` after the split: the last two components joined
by a dot, with `getD` standing in for Go's panicking index operation. -/
def lastTwoD (components : List Str) : Str :=
  components.getD (components.length - 2) [] ++ '.' :: components.getD (components.length - 1) []

/-- Go `getTLD`: the last two dot-separated components, joined by a dot.
The Go code panics when there are fewer than two components; that case is
unreachable in the program because every domain reaching `getTLD` carries the
prepended dot and therefore splits into at least two components. -/
def getTLD (domain : Str) : Str :=
  let components := splitOnDot domain
  let length := components.length
  components.getD (length - 2) [] ++ '.' :: components.getD (length - 1) []

/-- Go `checkDomain`: scan the length-sorted slice of the partition; break as
soon as a candidate is longer than `domain`; drop `domain` (return `false`) if
a candidate different from `domain` is a suffix of it; otherwise emit it
(return `true`, modelling the send on the `minimal` channel). -/
def checkDomain (subdomains : List Str) (domain : Str) : Bool :=
  match subdomains with
  | [] => true
  | otherDomain :: rest =>
    if domain.length < otherDomain.length then true
    else if hasSuffix domain otherDomain && !(domain == otherDomain) then false
    else checkDomain rest domain

/-- The full scan over all candidates of the partition, without the early
exit: the reference the early-exit loop of `checkDomain` is compared to. -/
def checkDomainFull (subdomains : List Str) (domain : Str) : Bool :=
  subdomains.all (fun otherDomain => !(hasSuffix domain otherDomain && !(domain == otherDomain)))

/-- The sort order of Go `cookDomains`: `slices.SortFunc` with comparison
`len(a) < len(b)` produces a slice sorted by non-decreasing length. -/
def lenOrder (a b : Str) : Prop := a.length ≤ b.length

instance : DecidableRel lenOrder := fun a b => Nat.decLe a.length b.length

instance : IsTotal Str lenOrder := ⟨fun a b => Nat.le_total a.length b.length⟩

instance : IsTrans Str lenOrder := ⟨fun _ _ _ => Nat.le_trans⟩

/-- Go `cookDomains`, per partition: materialize the set as a slice sorted by
non-decreasing length.  `slices.SortFunc` is an unspecified (unstable) sorting
algorithm; insertion sort is one faithful realization. -/
def cookPart (subdomains : List Str) : List Str :=
  subdomains.insertionSort lenOrder

/-- The partitioned block set `domainsRaw : map[string]map[string]bool`,
as an association list keyed by top-level key. -/
abbrev Partitions : Type := List (Str × List Str)

/-- Go `domainsRaw[tld]`: reading a missing key of a Go map yields the empty
set (nil map). -/
def getPart (domainsRaw : Partitions) (tld : Str) : List Str :=
  match domainsRaw.find? (fun p => p.1 == tld) with
  | some p => p.2
  | none => []

/-- The insertion step shared by `readDomains` and `applyBlacklist`:
create the partition for `getTLD(domain)` if missing, then add `domain` to
its set (`domainsRaw[tld][domain] = true`). -/
def insertDomain (domainsRaw : Partitions) (domain : Str) : Partitions :=
  let tld := getTLD domain
  if domainsRaw.any (fun p => p.1 == tld) then
    domainsRaw.map (fun p => if p.1 == tld then (p.1, p.2.insert domain) else p)
  else
    domainsRaw ++ [(tld, [domain])]

/-- The literal characters matched by the regular expression `0\.0\.0\.0 (.*)`
before its capturing group. -/
def hostPat : Str := "0.0.0.0 ".toList

/-- Go `hostRegexp.FindStringSubmatch(line)[1]`: the capture of the leftmost
match of `0\.0\.0\.0 (.*)` in `line` (the rest of the line after the first
occurrence of `"0.0.0.0 "`), or `none` when the line does not match — in which
case the Go code panics with an index-out-of-range on the nil submatch slice. -/
def findHostMatch : Str → Option Str
  | [] => none
  | c :: rest =>
    if hostPat.isPrefixOf (c :: rest) then some ((c :: rest).drop hostPat.length)
    else findHostMatch rest

/-- Outcomes of `readDomains` other than success: a returned error for the
line `"0.0.0.0 "` whose captured domain is empty, and a runtime panic for a
line that does not match the host pattern at all. -/
inductive ReadError : Type
  | invalidLine : Str → ReadError
  | panicNoMatch : Str → ReadError
deriving DecidableEq

/-- One loop iteration of Go `readDomains`. -/
def readDomainsStep (domainsRaw : Partitions) (line : Str) : Except ReadError Partitions :=
  match findHostMatch line with
  | none => Except.error (ReadError.panicNoMatch line)
  | some captured =>
    let domain := '.' :: captured
    if domain = ['.'] then Except.error (ReadError.invalidLine line)
    else Except.ok (insertDomain domainsRaw domain)

/-- Go `readDomains` over the lines of the main block list. -/
def readDomains (lines : List Str) : Except ReadError Partitions :=
  lines.foldlM readDomainsStep []

/-- Go `applyBlacklist`: insert every (already canonicalized) manual block
entry, exactly as `readDomains` inserts. -/
def applyBlacklist (blackDomains : List Str) (domainsRaw : Partitions) : Partitions :=
  blackDomains.foldl insertDomain domainsRaw

/-- The `needsOnWhitelist` flag computed by the loop of Go
`applyWhitelistEntry`, iterating over the snapshot in the given order: the
removal branch (`HasSuffix(subdomain, entry)`) leaves the flag alone, the
`else if !needsOnWhitelist && HasSuffix(entry, subdomain)` branch sets it. -/
def markLoop (entry : Str) : List Str → Bool → Bool
  | [], needsOnWhitelist => needsOnWhitelist
  | subdomain :: rest, needsOnWhitelist =>
    if hasSuffix subdomain entry then markLoop entry rest needsOnWhitelist
    else if !needsOnWhitelist && hasSuffix entry subdomain then markLoop entry rest true
    else markLoop entry rest needsOnWhitelist

/-- Go `applyWhitelistEntry`: delete from `entry`'s partition every snapshot
domain with `HasSuffix(subdomain, entry)` (the deletions of the loop, whose
net effect is order-independent), and add `entry` to the global `whitelist`
set when `needsOnWhitelist` was set.  Deleting the current key during a Go map
range is well-defined and every original key is still visited exactly once, so
the snapshot is the partition content at call time.  Partitions whose key
differs from `getTLD(entry)` are untouched, and no partition is created. -/
def applyWhitelistEntry (entry : Str) (domainsRaw : Partitions) (whitelist : List Str) :
    Partitions × List Str :=
  let tld := getTLD entry
  let subdomains := getPart domainsRaw tld
  let remaining := subdomains.filter (fun subdomain => !(hasSuffix subdomain entry))
  let needsOnWhitelist := markLoop entry subdomains false
  (domainsRaw.map (fun p => if p.1 == tld then (p.1, remaining) else p),
   if needsOnWhitelist then whitelist.insert entry else whitelist)

/-- Go `applyWhitelist`, sequential elaboration: process the allow entries one
after the other, starting from the empty global `whitelist` set. -/
def applyWhitelist (whiteDomains : List Str) (domainsRaw : Partitions) :
    Partitions × List Str :=
  whiteDomains.foldl (fun st entry => applyWhitelistEntry entry st.1 st.2) (domainsRaw, [])

/-- Modelled from the spec: the marking condition of section 4.4 step 3 read
literally — mark `entry` when a snapshot domain is a proper dotted-suffix
ancestor of `entry` **and no removal case has already been recorded for this
entry**.  The state is the pair (removal recorded so far, marked so far).
This is the spec-side definition compared against the code's `markLoop`. -/
def specMarkCondition (entry : Str) : List Str → Bool → Bool → Bool
  | [], _, marked => marked
  | subdomain :: rest, removalRecorded, marked =>
    if hasSuffix subdomain entry then specMarkCondition entry rest true marked
    else if hasSuffix entry subdomain && !(subdomain == entry) && !removalRecorded then
      specMarkCondition entry rest removalRecorded true
    else specMarkCondition entry rest removalRecorded marked

/-- Go `cookDomains`: one sorted slice per partition. -/
def cookDomains (domainsRaw : Partitions) : List (List Str) :=
  domainsRaw.map (fun p => cookPart p.2)

/-- The Minimal Set of one partition: the domains of the cooked slice that
`checkDomain` emits on the `minimal` channel. -/
def minimalSet (subdomains : List Str) : List Str :=
  (cookPart subdomains).filter (fun domain => checkDomain (cookPart subdomains) domain)

/-- The whole pipeline of `main` on the three input sources (main block-list
lines, manual block-list raw domains, allow-list raw domains): read, merge,
reconcile, cook, shadow-filter; result = (collected minimal domains, override
set). -/
def mainPipeline (blockLines blackLines whiteLines : List Str) :
    Except ReadError (List Str × List Str) :=
  match readDomains blockLines with
  | Except.error e => Except.error e
  | Except.ok domainsRaw =>
    let merged := applyBlacklist (blackLines.map (fun l => '.' :: l)) domainsRaw
    let reconciled := applyWhitelist (whiteLines.map (fun l => '.' :: l)) merged
    Except.ok
      (((cookDomains reconciled.1).map (fun sd => sd.filter (checkDomain sd))).flatten,
       reconciled.2)

/-! Basic facts about the dot-boundary canonical form. -/

theorem hasSuffix_iff {s t : Str} : hasSuffix s t = true ↔ t <:+ s :=
  List.isSuffixOf_iff_suffix

theorem consHead_ne_nil (c : Char) (ls : List Str) : consHead c ls ≠ [] := by
  cases ls <;> simp [consHead]

theorem splitOnDot_ne_nil (s : Str) : splitOnDot s ≠ [] := by
  cases s with
  | nil => simp [splitOnDot]
  | cons c rest =>
    simp only [splitOnDot]
    split
    · simp
    · exact consHead_ne_nil c (splitOnDot rest)

theorem consHead_append (c : Char) (a b : List Str) (ha : a ≠ []) :
    consHead c (a ++ b) = consHead c a ++ b := by
  cases a with
  | nil => exact absurd rfl ha
  | cons l ls => simp [consHead]

theorem splitOnDot_cons_ne (c : Char) (s : Str) (hc : c ≠ '.') :
    splitOnDot (c :: s) = consHead c (splitOnDot s) := by
  simp [splitOnDot, hc]

theorem splitOnDot_append_dot (x y : Str) :
    splitOnDot (x ++ '.' :: y) = splitOnDot x ++ splitOnDot y := by
  induction x with
  | nil => simp [splitOnDot]
  | cons c x ih =>
    by_cases hc : c = '.'
    · subst hc
      simp [splitOnDot, ih]
    · rw [List.cons_append, splitOnDot_cons_ne c _ hc, splitOnDot_cons_ne c x hc, ih,
        consHead_append c (splitOnDot x) (splitOnDot y) (splitOnDot_ne_nil x)]

theorem joinDot_cons_cons (l : Str) (ls : List Str) (h : ls ≠ []) :
    joinDot (l :: ls) = l ++ '.' :: joinDot ls := by
  cases ls with
  | nil => exact absurd rfl h
  | cons l' ls' => simp [joinDot]

theorem joinDot_consHead (c : Char) (ls : List Str) (h : ls ≠ []) :
    joinDot (consHead c ls) = c :: joinDot ls := by
  cases ls with
  | nil => exact absurd rfl h
  | cons l ls' =>
    cases ls' with
    | nil => simp [consHead, joinDot]
    | cons l' ls'' => simp [consHead, joinDot]

theorem joinDot_splitOnDot (s : Str) : joinDot (splitOnDot s) = s := by
  induction s with
  | nil => simp [splitOnDot, joinDot]
  | cons c rest ih =>
    by_cases hc : c = '.'
    · subst hc
      simp only [splitOnDot, if_pos rfl]
      rcases h : splitOnDot rest with _ | ⟨l, ls⟩
      · exact absurd h (splitOnDot_ne_nil rest)
      · rw [h] at ih
        simp [joinDot, ih]
    · simp only [splitOnDot, if_neg hc]
      rw [joinDot_consHead c (splitOnDot rest) (splitOnDot_ne_nil rest), ih]

theorem splitOnDot_injective {a b : Str} (h : splitOnDot a = splitOnDot b) : a = b := by
  have ha := joinDot_splitOnDot a
  rw [h, joinDot_splitOnDot b] at ha
  exact ha.symm

theorem joinDot_append (a b : List Str) (ha : a ≠ []) (hb : b ≠ []) :
    joinDot (a ++ b) = joinDot a ++ '.' :: joinDot b := by
  induction a with
  | nil => exact absurd rfl ha
  | cons l a' ih =>
    cases a' with
    | nil =>
      rw [List.cons_append, List.nil_append, joinDot_cons_cons l b hb]
      simp [joinDot]
    | cons l'' a'' =>
      have h1 := joinDot_cons_cons l ((l'' :: a'') ++ b) (by simp)
      have h2 := joinDot_cons_cons l (l'' :: a'') (by simp)
      rw [List.cons_append, h1, ih (by simp), h2]
      simp

/-- The central boundary-safety fact: the Go suffix test on dot-prefixed
canonical forms is exactly the suffix relation on dot-separated label
sequences. -/
theorem canon_suffix_iff_labels (A B : Str) :
    ('.' :: B) <:+ ('.' :: A) ↔ splitOnDot B <:+ splitOnDot A := by
  constructor
  · rintro ⟨t, ht⟩
    cases t with
    | nil =>
      simp only [List.nil_append, List.cons.injEq] at ht
      rw [ht.2]
    | cons c t' =>
      simp only [List.cons_append, List.cons.injEq] at ht
      obtain ⟨hc, hA⟩ := ht
      subst hA
      rw [splitOnDot_append_dot]
      exact ⟨splitOnDot t', rfl⟩
  · rintro ⟨c, hc⟩
    cases c with
    | nil =>
      simp only [List.nil_append] at hc
      rw [splitOnDot_injective hc]
    | cons l ls =>
      have hA : A = joinDot (l :: ls) ++ '.' :: B := by
        have := joinDot_splitOnDot A
        rw [← hc, joinDot_append (l :: ls) (splitOnDot B) (by simp) (splitOnDot_ne_nil B),
          joinDot_splitOnDot B] at this
        exact this.symm
      exact ⟨'.' :: joinDot (l :: ls), by rw [hA]; simp⟩

theorem splitOnDot_cons_dot (s : Str) : splitOnDot ('.' :: s) = [] :: splitOnDot s := by
  simp [splitOnDot]

theorem two_le_splitOnDot_length {s : Str} (h : '.' ∈ s) :
    2 ≤ (splitOnDot s).length := by
  induction s with
  | nil => cases h
  | cons c rest ih =>
    by_cases hc : c = '.'
    · subst hc
      rw [splitOnDot_cons_dot, List.length_cons]
      have := List.length_pos.mpr (splitOnDot_ne_nil rest)
      omega
    · have hrest : '.' ∈ rest := by
        rcases List.mem_cons.mp h with h1 | h1
        · exact absurd h1.symm hc
        · exact h1
      have h2 := ih hrest
      simp only [splitOnDot, if_neg hc]
      rcases hsp : splitOnDot rest with _ | ⟨l, ls⟩
      · exact absurd hsp (splitOnDot_ne_nil rest)
      · rw [hsp] at h2
        simpa [consHead] using h2

theorem lastTwoD_cons (a : Str) (l : List Str) (h : 2 ≤ l.length) :
    lastTwoD (a :: l) = lastTwoD l := by
  unfold lastTwoD
  have h1 : (a :: l).length - 2 = (l.length - 2) + 1 := by simp; omega
  have h2 : (a :: l).length - 1 = (l.length - 1) + 1 := by simp; omega
  rw [h1, h2, List.getD_cons_succ, List.getD_cons_succ]

theorem lastTwoD_append (c l : List Str) (h : 2 ≤ l.length) :
    lastTwoD (c ++ l) = lastTwoD l := by
  induction c with
  | nil => simp
  | cons a c' ih =>
    have : 2 ≤ (c' ++ l).length := by
      simp only [List.length_append]
      omega
    rw [List.cons_append, lastTwoD_cons a (c' ++ l) this, ih]

theorem getTLD_eq_lastTwoD (d : Str) : getTLD d = lastTwoD (splitOnDot d) := rfl

/-! The shadow filter: early-exit scan versus full scan. -/

theorem suffix_length_lt {o d : Str} (hs : o <:+ d) (hne : o ≠ d) : o.length < d.length := by
  rcases Nat.lt_or_ge o.length d.length with h | h
  · exact h
  · exact absurd (hs.eq_of_length (Nat.le_antisymm hs.length_le h)) hne

theorem suffix_antisymm {a b : Str} (h1 : a <:+ b) (h2 : b <:+ a) : a = b :=
  h1.eq_of_length (Nat.le_antisymm h1.length_le h2.length_le)

theorem checkDomainFull_eq_true_iff (subdomains : List Str) (domain : Str) :
    checkDomainFull subdomains domain = true ↔
      ∀ o ∈ subdomains, o <:+ domain → o = domain := by
  unfold checkDomainFull
  rw [List.all_eq_true]
  constructor
  · intro h o ho hs
    have := h o ho
    simp only [Bool.not_eq_true', Bool.and_eq_false_iff, Bool.not_eq_false', beq_iff_eq] at this
    rcases this with h1 | h1
    · exact absurd (hasSuffix_iff.mpr hs) (by simp [h1])
    · exact h1.symm
  · intro h o ho
    simp only [Bool.not_eq_true', Bool.and_eq_false_iff, Bool.not_eq_false', beq_iff_eq]
    by_cases hs : hasSuffix domain o = true
    · exact Or.inr (h o ho (hasSuffix_iff.mp hs)).symm
    · exact Or.inl (by simpa using hs)

theorem checkDomain_eq_checkDomainFull (subdomains : List Str) (domain : Str)
    (hsorted : List.Pairwise lenOrder subdomains) :
    checkDomain subdomains domain = checkDomainFull subdomains domain := by
  induction subdomains with
  | nil => rfl
  | cons o rest ih =>
    rcases List.pairwise_cons.mp hsorted with ⟨ho, hrest⟩
    unfold checkDomain
    by_cases hlen : domain.length < o.length
    · rw [if_pos hlen]
      have hall : checkDomainFull (o :: rest) domain = true := by
        rw [checkDomainFull_eq_true_iff]
        intro r hr hs
        have hrlen : o.length ≤ r.length := by
          rcases List.mem_cons.mp hr with h | h
          · rw [h]
          · exact ho r h
        have := hs.length_le
        omega
      rw [hall]
    · rw [if_neg hlen]
      cases hkill : (hasSuffix domain o && !(domain == o)) with
      | true =>
        rw [if_pos rfl]
        unfold checkDomainFull
        simp only [List.all_cons, hkill, Bool.not_true, Bool.false_and]
      | false =>
        rw [if_neg (by simp), ih hrest]
        unfold checkDomainFull
        simp only [List.all_cons, hkill, Bool.not_false, Bool.true_and]

/-! The marking loop of `applyWhitelistEntry`. -/

theorem markLoop_eq_or_any (entry : Str) (l : List Str) (b : Bool) :
    markLoop entry l b =
      (b || l.any (fun d => !(hasSuffix d entry) && hasSuffix entry d)) := by
  induction l generalizing b with
  | nil => simp [markLoop]
  | cons d rest ih =>
    unfold markLoop
    by_cases h1 : hasSuffix d entry = true
    · rw [if_pos h1, ih]
      simp [h1]
    · rw [if_neg h1]
      rw [Bool.not_eq_true] at h1
      by_cases h2 : hasSuffix entry d = true
      · cases b with
        | false => simp [h1, h2, ih]
        | true => simp [h1, h2, ih]
      · rw [Bool.not_eq_true] at h2
        simp [h1, h2, ih]

theorem markLoop_iff_ancestor (entry : Str) (l : List Str) :
    markLoop entry l false = true ↔ ∃ d ∈ l, d ≠ entry ∧ d <:+ entry := by
  rw [markLoop_eq_or_any]
  simp only [Bool.false_or, List.any_eq_true, Bool.and_eq_true, Bool.not_eq_true']
  constructor
  · rintro ⟨d, hd, hnot, hsuf⟩
    refine ⟨d, hd, ?_, hasSuffix_iff.mp hsuf⟩
    intro he
    subst he
    exact absurd (hasSuffix_iff.mpr (List.suffix_refl d)) (by simp [hnot])
  · rintro ⟨d, hd, hne, hsuf⟩
    refine ⟨d, hd, ?_, hasSuffix_iff.mpr hsuf⟩
    rw [Bool.eq_false_iff]
    intro habs
    exact hne (suffix_antisymm hsuf (hasSuffix_iff.mp habs))

/-! Top-level keys of related domains. -/

theorem getTLD_canon_eq_of_suffix (A B : Str) (hsuf : ('.' :: B) <:+ ('.' :: A))
    (hdot : '.' ∈ B) : getTLD ('.' :: A) = getTLD ('.' :: B) := by
  have hlab : splitOnDot B <:+ splitOnDot A := (canon_suffix_iff_labels A B).mp hsuf
  obtain ⟨c, hc⟩ := hlab
  have h2 : 2 ≤ (splitOnDot B).length := two_le_splitOnDot_length hdot
  have hA2 : 2 ≤ (splitOnDot A).length := by
    rw [← hc, List.length_append]
    omega
  rw [getTLD_eq_lastTwoD, getTLD_eq_lastTwoD, splitOnDot_cons_dot, splitOnDot_cons_dot,
    lastTwoD_cons _ _ hA2, lastTwoD_cons _ _ h2, ← hc, lastTwoD_append c _ h2]

/-! The partitioned block set and the allow-list reconciliation. -/

theorem perm_any_eq {α : Type} {l₁ l₂ : List α} (f : α → Bool) (h : l₁.Perm l₂) :
    l₁.any f = l₂.any f := by
  rcases hb : l₂.any f with _ | _
  · simp only [List.any_eq_false] at hb ⊢
    intro a ha
    exact hb a (h.mem_iff.mp ha)
  · simp only [List.any_eq_true] at hb ⊢
    obtain ⟨a, ha, hfa⟩ := hb
    exact ⟨a, h.mem_iff.mpr ha, hfa⟩

theorem getPart_cons (p : Str × List Str) (rest : Partitions) (k : Str) :
    getPart (p :: rest) k = if p.1 = k then p.2 else getPart rest k := by
  unfold getPart
  by_cases h : p.1 = k
  · rw [List.find?_cons_of_pos _ (by simp [h]), if_pos h]
  · rw [List.find?_cons_of_neg _ (by simp [h]), if_neg h]

theorem getPart_eq_nil_of_not_any (dr : Partitions) (k : Str)
    (h : dr.any (fun p => p.1 == k) = false) : getPart dr k = [] := by
  induction dr with
  | nil => rfl
  | cons p rest ih =>
    rw [List.any_cons, Bool.or_eq_false_iff] at h
    rw [getPart_cons, if_neg (by simpa using h.1)]
    exact ih h.2

theorem getPart_map_set (dr : Partitions) (tld : Str) (v : List Str) (k : Str) :
    getPart (dr.map (fun p => if p.1 == tld then (p.1, v) else p)) k =
      if k = tld then (if dr.any (fun p => p.1 == k) then v else []) else getPart dr k := by
  induction dr with
  | nil =>
    by_cases h : k = tld <;> simp [getPart, h]
  | cons p rest ih =>
    have h1 : ((if p.1 == tld then (p.1, v) else p).1) = p.1 := by
      by_cases h : p.1 = tld <;> simp [h]
    have h2 : ((if p.1 == tld then (p.1, v) else p).2) = if p.1 = tld then v else p.2 := by
      by_cases h : p.1 = tld <;> simp [h]
    rw [List.map_cons, getPart_cons, getPart_cons, List.any_cons, h1, h2, ih]
    by_cases hpk : p.1 = k
    · rw [if_pos hpk, if_pos hpk, show (p.1 == k) = true by simp [hpk], Bool.true_or]
      by_cases hpt : p.1 = tld
      · have hk : k = tld := hpk.symm.trans hpt
        rw [if_pos hpt, if_pos hk, if_pos rfl]
      · have hk : k ≠ tld := fun h => hpt (hpk.trans h)
        rw [if_neg hpt, if_neg hk]
    · rw [if_neg hpk, if_neg hpk, show (p.1 == k) = false by simp [hpk], Bool.false_or]

theorem applyWhitelistEntry_fst (entry : Str) (dr : Partitions) (wl : List Str) (k : Str) :
    getPart (applyWhitelistEntry entry dr wl).1 k =
      if k = getTLD entry then
        (getPart dr k).filter (fun d => !(hasSuffix d entry))
      else getPart dr k := by
  unfold applyWhitelistEntry
  rw [getPart_map_set]
  by_cases hk : k = getTLD entry
  · rw [if_pos hk, if_pos hk, hk]
    cases hany : dr.any (fun p => p.1 == getTLD entry) with
    | true => rfl
    | false => rw [getPart_eq_nil_of_not_any dr _ hany]; rfl
  · rw [if_neg hk, if_neg hk]

theorem applyWhitelistEntry_snd (entry : Str) (dr : Partitions) (wl : List Str) :
    (applyWhitelistEntry entry dr wl).2 =
      if markLoop entry (getPart dr (getTLD entry)) false then wl.insert entry else wl := rfl

theorem applyWhitelist_foldl_fst (es : List Str) (dr : Partitions) (wl : List Str) (k : Str) :
    getPart ((es.foldl (fun st entry => applyWhitelistEntry entry st.1 st.2) (dr, wl)).1) k =
      (getPart dr k).filter
        (fun d => !(es.any (fun e => getTLD e == k && hasSuffix d e))) := by
  induction es generalizing dr wl with
  | nil => simp
  | cons e es ih =>
    rw [List.foldl_cons, ih, applyWhitelistEntry_fst]
    by_cases hk : k = getTLD e
    · rw [if_pos hk, List.filter_filter]
      congr 1
      funext d
      have : (getTLD e == k) = true := by simp [hk]
      rw [List.any_cons, this]
      cases hasSuffix d e <;> cases es.any (fun e' => getTLD e' == k && hasSuffix d e') <;> rfl
    · rw [if_neg hk]
      congr 1
      funext d
      have : (getTLD e == k) = false := by
        rw [beq_eq_false_iff_ne]
        exact fun h => hk h.symm
      rw [List.any_cons, this]
      rfl

theorem applyWhitelist_fst (whiteDomains : List Str) (dr : Partitions) (k : Str) :
    getPart (applyWhitelist whiteDomains dr).1 k =
      (getPart dr k).filter
        (fun d => !(whiteDomains.any (fun e => getTLD e == k && hasSuffix d e))) :=
  applyWhitelist_foldl_fst whiteDomains dr [] k

theorem mem_getPart (dr : Partitions) (k d : Str) (hd : d ∈ getPart dr k) :
    ∃ p ∈ dr, p.1 = k ∧ d ∈ p.2 := by
  unfold getPart at hd
  rcases hfind : dr.find? (fun p => p.1 == k) with _ | p
  · rw [hfind] at hd
    cases hd
  · rw [hfind] at hd
    refine ⟨p, List.mem_of_find?_eq_some hfind, ?_, hd⟩
    have := List.find?_some hfind
    simpa using this

/-! Cooked partitions and the Minimal Set. -/

theorem cookPart_perm (l : List Str) : (cookPart l).Perm l :=
  List.perm_insertionSort lenOrder l

theorem cookPart_sorted (l : List Str) : List.Pairwise lenOrder (cookPart l) :=
  List.sorted_insertionSort lenOrder l

theorem checkDomain_cookPart_iff (l : List Str) (d : Str) :
    checkDomain (cookPart l) d = true ↔ ∀ o ∈ l, o <:+ d → o = d := by
  rw [checkDomain_eq_checkDomainFull _ _ (cookPart_sorted l), checkDomainFull_eq_true_iff]
  constructor
  · intro h o ho
    exact h o ((cookPart_perm l).mem_iff.mpr ho)
  · intro h o ho
    exact h o ((cookPart_perm l).mem_iff.mp ho)

theorem mem_minimalSet_iff (l : List Str) (d : Str) :
    d ∈ minimalSet l ↔ d ∈ l ∧ checkDomain (cookPart l) d = true := by
  unfold minimalSet
  rw [List.mem_filter, (cookPart_perm l).mem_iff]

theorem not_emitted_ancestor {part : List Str} {d : Str}
    (h : checkDomain (cookPart part) d = false) : ∃ o ∈ part, o <:+ d ∧ o ≠ d := by
  have hnot := mt (checkDomain_cookPart_iff part d).mpr (by simp [h])
  push_neg at hnot
  exact hnot

theorem coverage_aux (n : Nat) : ∀ (part : List Str) (d : Str), d.length ≤ n → d ∈ part →
    ∃ a, a ∈ minimalSet part ∧ hasSuffix d a = true := by
  induction n with
  | zero =>
    intro part d hlen hd
    cases hcd : checkDomain (cookPart part) d with
    | true =>
      exact ⟨d, (mem_minimalSet_iff part d).mpr ⟨hd, hcd⟩,
        hasSuffix_iff.mpr (List.suffix_refl d)⟩
    | false =>
      obtain ⟨o, _, hs, hne⟩ := not_emitted_ancestor hcd
      have := suffix_length_lt hs hne
      omega
  | succ n ih =>
    intro part d hlen hd
    cases hcd : checkDomain (cookPart part) d with
    | true =>
      exact ⟨d, (mem_minimalSet_iff part d).mpr ⟨hd, hcd⟩,
        hasSuffix_iff.mpr (List.suffix_refl d)⟩
    | false =>
      obtain ⟨o, ho, hs, hne⟩ := not_emitted_ancestor hcd
      have hlt := suffix_length_lt hs hne
      obtain ⟨a, ha, hsa⟩ := ih part o (by omega) ho
      exact ⟨a, ha, hasSuffix_iff.mpr ((hasSuffix_iff.mp hsa).trans hs)⟩

theorem minimalSet_coverage (part : List Str) (d : Str) (hd : d ∈ part) :
    ∃ a, a ∈ minimalSet part ∧ hasSuffix d a = true :=
  coverage_aux d.length part d Nat.le.refl hd

theorem minimalSet_shadow_free (part : List Str) {a b : Str}
    (ha : a ∈ minimalSet part) (hb : b ∈ minimalSet part) (hs : b <:+ a) : b = a := by
  rcases (mem_minimalSet_iff part a).mp ha with ⟨hal, hae⟩
  rcases (mem_minimalSet_iff part b).mp hb with ⟨hbl, _⟩
  exact (checkDomain_cookPart_iff part a).mp hae b hbl hs

theorem minimalSet_stable (part : List Str) (d : Str) (hd : d ∈ minimalSet part) :
    checkDomain (cookPart (minimalSet part)) d = true := by
  rw [checkDomain_cookPart_iff]
  intro o ho hs
  exact minimalSet_shadow_free part hd ho hs

/-! Loading errors. -/

theorem head_dot_eq {s : Str} (h : s.head? = some '.') : s = '.' :: s.tail := by
  cases s with
  | nil => cases h
  | cons c t =>
    simp only [List.head?_cons, Option.some.injEq] at h
    rw [List.tail_cons, h]

theorem readDomainsStep_error_iff (dr : Partitions) (line : Str) :
    (∃ err, readDomainsStep dr line = Except.error err) ↔
      findHostMatch line = none ∨ findHostMatch line = some [] := by
  unfold readDomainsStep
  rcases hm : findHostMatch line with _ | cap
  · simp
  · rcases cap with _ | ⟨c, cs⟩
    · simp
    · simp

theorem except_error_bind {ε α β : Type} (e : ε) (f : α → Except ε β) :
    (Except.error e >>= f) = Except.error e := rfl

theorem except_ok_bind {ε α β : Type} (a : α) (f : α → Except ε β) :
    (Except.ok a >>= f) = f a := rfl

theorem except_pure_ne_error {ε α : Type} (a : α) (e : ε) :
    (pure a : Except ε α) ≠ Except.error e := fun h => Except.noConfusion h

theorem readDomains_foldl_error_iff (lines : List Str) : ∀ (dr : Partitions),
    (∃ err, lines.foldlM readDomainsStep dr = Except.error err) ↔
      ∃ line ∈ lines, findHostMatch line = none ∨ findHostMatch line = some [] := by
  induction lines with
  | nil =>
    intro dr
    constructor
    · rintro ⟨err, herr⟩
      exact absurd herr (except_pure_ne_error dr err)
    · rintro ⟨line, hl, _⟩
      cases hl
  | cons line rest ih =>
    intro dr
    rw [List.foldlM_cons]
    rcases hstep : readDomainsStep dr line with err | dr'
    · have hbad : findHostMatch line = none ∨ findHostMatch line = some [] :=
        (readDomainsStep_error_iff dr line).mp ⟨err, hstep⟩
      rw [except_error_bind]
      constructor
      · intro _
        exact ⟨line, List.mem_cons_self line rest, hbad⟩
      · intro _
        exact ⟨err, rfl⟩
    · have hgood : ¬(findHostMatch line = none ∨ findHostMatch line = some []) := by
        intro hbad
        obtain ⟨err, herr⟩ := (readDomainsStep_error_iff dr line).mpr hbad
        rw [hstep] at herr
        cases herr
      rw [except_ok_bind]
      rw [ih dr']
      constructor
      · rintro ⟨l, hl, hb⟩
        exact ⟨l, List.mem_cons_of_mem line hl, hb⟩
      · rintro ⟨l, hl, hb⟩
        rcases List.mem_cons.mp hl with h | h
        · exact absurd (h ▸ hb) hgood
        · exact ⟨l, h, hb⟩

/-! The claims. -/

/-- C1: on a partition slice sorted by non-decreasing length, the early-exit
scan of `checkDomain` equals the full scan over all candidates, and it emits a
domain exactly when no other domain of the slice is a boundary-safe proper
ancestor (a distinct suffix) of it. -/
theorem claim1_shadow_scan_equiv (subdomains : List Str) (domain : Str)
    (hsorted : List.Pairwise lenOrder subdomains) :
    checkDomain subdomains domain = checkDomainFull subdomains domain ∧
      (checkDomain subdomains domain = true ↔
        ∀ o ∈ subdomains, o <:+ domain → o = domain) := by
  refine ⟨checkDomain_eq_checkDomainFull _ _ hsorted, ?_⟩
  rw [checkDomain_eq_checkDomainFull _ _ hsorted]
  exact checkDomainFull_eq_true_iff _ _

theorem claim1_shadow_scan_equiv_witness :
    List.Pairwise lenOrder [canon "example.com", canon "x.example.com"] ∧
      (checkDomain [canon "example.com", canon "x.example.com"] (canon "x.example.com") =
          checkDomainFull [canon "example.com", canon "x.example.com"]
            (canon "x.example.com") ∧
        (checkDomain [canon "example.com", canon "x.example.com"] (canon "x.example.com") =
            true ↔
          ∀ o ∈ [canon "example.com", canon "x.example.com"],
            o <:+ canon "x.example.com" → o = canon "x.example.com")) :=
  ⟨by decide, claim1_shadow_scan_equiv _ _ (by decide)⟩

/-- C2 (amended): an entry is added to the Override Set iff some proper
ancestor of it was present in its partition before the reconciliation
removals for this entry.  The code's marking guard is `!needsOnWhitelist`
("no mark recorded yet"), not the spec's literal "no removal case recorded",
and it is the code's guard that produces exactly this set. -/
theorem claim2_override_iff_ancestor (entry : Str) (domainsRaw : Partitions)
    (whitelist : List Str) (hwl : entry ∉ whitelist) :
    entry ∈ (applyWhitelistEntry entry domainsRaw whitelist).2 ↔
      ∃ d ∈ getPart domainsRaw (getTLD entry), d ≠ entry ∧ d <:+ entry := by
  rw [applyWhitelistEntry_snd]
  by_cases hmark : markLoop entry (getPart domainsRaw (getTLD entry)) false = true
  · rw [if_pos hmark]
    constructor
    · intro _
      exact (markLoop_iff_ancestor _ _).mp hmark
    · intro _
      exact List.mem_insert_self entry whitelist
  · rw [if_neg hmark]
    constructor
    · intro h
      exact absurd h hwl
    · intro hex
      exact absurd ((markLoop_iff_ancestor _ _).mpr hex) hmark

theorem claim2_override_iff_ancestor_witness :
    (canon "x.example.com" ∉ ([] : List Str)) ∧
      (canon "x.example.com" ∈
          (applyWhitelistEntry (canon "x.example.com")
            [("example.com".toList, [canon "example.com"])] []).2 ↔
        ∃ d ∈ getPart [("example.com".toList, [canon "example.com"])]
            (getTLD (canon "x.example.com")),
          d ≠ canon "x.example.com" ∧ d <:+ canon "x.example.com") :=
  ⟨by decide, claim2_override_iff_ancestor _ _ _ (by decide)⟩

/-- C2 counterexample: iterating the snapshot in the order [descendant,
ancestor], the spec's literal marking condition ("no removal case has already
been recorded") refuses to mark the entry even though a proper ancestor is
present in the snapshot, while the code's loop does mark it. -/
theorem claim2_spec_marking_counterexample :
    specMarkCondition (canon "a.example.com")
        [canon "x.a.example.com", canon "example.com"] false false = false ∧
      markLoop (canon "a.example.com")
        [canon "x.a.example.com", canon "example.com"] false = true ∧
      ∃ d ∈ [canon "x.a.example.com", canon "example.com"],
        d ≠ canon "a.example.com" ∧ d <:+ canon "a.example.com" := by decide

/-- C3 (amended): after the Allow-List Reconciler has processed all entries,
no domain equal to an allow entry E or being a boundary-safe proper
descendant of E remains in any partition — provided E has at least two labels
(a one-label allow entry like `com` targets the partition keyed `.com` and
cannot remove descendants such as `x.com`, which live in other partitions).
The Override Set exception of the original claim is vacuous: removal is
unconditional. -/
theorem claim3_allowlist_removal (whiteDomains : List Str) (domainsRaw : Partitions)
    (hkeys : ∀ p ∈ domainsRaw, ∀ d ∈ p.2, p.1 = getTLD d ∧ d.head? = some '.')
    (e : Str) (he : e ∈ whiteDomains) (hehead : e.head? = some '.') (hdot : '.' ∈ e.tail)
    (k d : Str) (hd : d ∈ getPart (applyWhitelist whiteDomains domainsRaw).1 k) :
    hasSuffix d e = false := by
  rw [applyWhitelist_fst] at hd
  rcases List.mem_filter.mp hd with ⟨hd0, hpred⟩
  by_contra habs
  rw [Bool.not_eq_false] at habs
  obtain ⟨p, hp, hpk, hdp⟩ := mem_getPart domainsRaw k d hd0
  obtain ⟨hptld, hdhead⟩ := hkeys p hp d hdp
  have hde : ('.' :: e.tail) <:+ ('.' :: d.tail) := by
    rw [← head_dot_eq hehead, ← head_dot_eq hdhead]
    exact hasSuffix_iff.mp habs
  have htld : getTLD d = getTLD e := by
    rw [head_dot_eq hdhead, head_dot_eq hehead]
    exact getTLD_canon_eq_of_suffix (d.tail) (e.tail) hde hdot
  have hkk : getTLD e = k := by rw [← htld, ← hptld, hpk]
  rw [Bool.not_eq_true', List.any_eq_false] at hpred
  have hpe := hpred e he
  rw [hkk] at hpe
  simp [habs] at hpe

theorem claim3_allowlist_removal_witness :
    hasSuffix (canon "example.com") (canon "x.example.com") = false :=
  claim3_allowlist_removal [canon "x.example.com"]
    [("example.com".toList, [canon "example.com", canon "x.example.com"])]
    (by decide) (canon "x.example.com") (by decide) (by decide) (by decide)
    ("example.com".toList) (canon "example.com") (by decide)

/-- C3 counterexample: the one-label allow entry `com` removes nothing: the
proper descendant `x.com` of `.com` survives reconciliation in partition
`x.com`, and the Override Set is empty. -/
theorem claim3_counterexample :
    canon "x.com" ∈
        getPart (applyWhitelist [canon "com"]
          [("x.com".toList, [canon "x.com"])]).1 ("x.com".toList) ∧
      hasSuffix (canon "x.com") (canon "com") = true ∧
      (applyWhitelist [canon "com"] [("x.com".toList, [canon "x.com"])]).2 = [] := by decide

/-- C4: the suffix test on dot-prefixed canonical forms holds exactly when
the candidate ancestor's dot-separated label sequence is a suffix of the
other domain's label sequence; in particular `evilexample.com` and
`example.com` never match each other, while `sub.example.com` matches
`example.com`. -/
theorem claim4_boundary_safety :
    (∀ A B : Str, hasSuffix ('.' :: A) ('.' :: B) = true ↔
      splitOnDot B <:+ splitOnDot A) ∧
      hasSuffix (canon "evilexample.com") (canon "example.com") = false ∧
      hasSuffix (canon "example.com") (canon "evilexample.com") = false ∧
      hasSuffix (canon "sub.example.com") (canon "example.com") = true :=
  ⟨fun A B => by rw [hasSuffix_iff]; exact canon_suffix_iff_labels A B,
   by decide, by decide, by decide⟩

/-- C5 (amended): two canonical domains in a boundary-safe proper
ancestor/descendant relation have the same top-level key, provided the
ancestor has at least two labels.  (A one-label ancestor such as `.com`
violates the original claim: `getTLD ".com" = ".com"` but
`getTLD ".x.com" = "x.com"`.) -/
theorem claim5_same_partition (A B : Str)
    (hanc : hasSuffix ('.' :: A) ('.' :: B) = true) (hne : ('.' :: A) ≠ ('.' :: B))
    (hdot : '.' ∈ B) : getTLD ('.' :: A) = getTLD ('.' :: B) :=
  getTLD_canon_eq_of_suffix A B (hasSuffix_iff.mp hanc) hdot

theorem claim5_same_partition_witness :
    getTLD (canon "sub.example.com") = getTLD (canon "example.com") :=
  claim5_same_partition ("sub.example.com".toList) ("example.com".toList)
    (by decide) (by decide) (by decide)

/-- C5 counterexample: `.com` is a boundary-safe proper ancestor of `.x.com`
yet their top-level keys differ, so the original claim fails for one-label
domains (which the program does accept). -/
theorem claim5_counterexample :
    hasSuffix (canon "x.com") (canon "com") = true ∧
      canon "x.com" ≠ canon "com" ∧
      getTLD (canon "x.com") ≠ getTLD (canon "com") := by decide

/-- C6 (amended): for every domain D present in a partition when the Shadow
Filter runs (after block-list merge and allow-list reconciliation), D itself
or a boundary-safe ancestor of D is in that partition's Minimal Set — the
Shadow Filter loses no coverage.  The original claim quantified over the raw
block-list union, which the allow list may have emptied. -/
theorem claim6_coverage (part : List Str) (d : Str) (hd : d ∈ part) :
    ∃ a, a ∈ minimalSet part ∧ hasSuffix d a = true :=
  minimalSet_coverage part d hd

theorem claim6_coverage_witness :
    ∃ a, a ∈ minimalSet [canon "example.com", canon "x.example.com"] ∧
      hasSuffix (canon "x.example.com") a = true :=
  claim6_coverage [canon "example.com", canon "x.example.com"]
    (canon "x.example.com") (by decide)

/-- C6 counterexample: with block list `0.0.0.0 x.com` and allow list
`x.com`, the whole pipeline produces an empty Minimal Set and an empty
Override Set, although `x.com` was in the original block union — so neither
`x.com` nor any ancestor of it survives, contradicting the original claim. -/
theorem claim6_counterexample :
    mainPipeline ["0.0.0.0 x.com".toList] [] ["x.com".toList] =
        Except.ok ([], []) ∧
      readDomains ["0.0.0.0 x.com".toList] =
        Except.ok [("x.com".toList, [canon "x.com"])] := ⟨rfl, rfl⟩

/-- C7 (amended): processing the allow entries sequentially in any order
yields the same final partition contents (removals commute); the Override Set
however is order-dependent when one allow entry is a proper ancestor of
another, so only the partition-contents half of the original claim holds. -/
theorem claim7_partition_order_invariant (es₁ es₂ : List Str) (domainsRaw : Partitions)
    (hperm : es₁.Perm es₂) (k : Str) :
    getPart (applyWhitelist es₁ domainsRaw).1 k =
      getPart (applyWhitelist es₂ domainsRaw).1 k := by
  rw [applyWhitelist_fst, applyWhitelist_fst]
  congr 1
  funext d
  rw [perm_any_eq _ hperm]

theorem claim7_partition_order_invariant_witness :
    getPart (applyWhitelist [canon "example.com", canon "x.example.com"]
        [("example.com".toList, [canon "example.com"])]).1 ("example.com".toList) =
      getPart (applyWhitelist [canon "x.example.com", canon "example.com"]
        [("example.com".toList, [canon "example.com"])]).1 ("example.com".toList) :=
  claim7_partition_order_invariant _ _ _ (by decide) _

/-- C7 counterexample: the two orders of the same two allow entries produce
different Override Sets on the same block set: entry `x.example.com` is
marked only when it is processed before `example.com` has removed the
surviving ancestor. -/
theorem claim7_counterexample :
    (applyWhitelist [canon "example.com", canon "x.example.com"]
        [("example.com".toList, [canon "example.com"])]).2 = [] ∧
      (applyWhitelist [canon "x.example.com", canon "example.com"]
        [("example.com".toList, [canon "example.com"])]).2 = [canon "x.example.com"] ∧
      List.Perm [canon "example.com", canon "x.example.com"]
        [canon "x.example.com", canon "example.com"] := by decide

/-- C8: the Shadow Filter is idempotent: every member of the Minimal Set is
emitted again when the filter is applied to the Minimal Set itself, and the
Minimal Set contains no boundary-safe proper descendant of another member. -/
theorem claim8_idempotent (part : List Str) :
    (∀ d ∈ minimalSet part, checkDomain (cookPart (minimalSet part)) d = true) ∧
      ∀ a ∈ minimalSet part, ∀ b ∈ minimalSet part, b <:+ a → b = a :=
  ⟨fun d hd => minimalSet_stable part d hd,
   fun a ha b hb hs => minimalSet_shadow_free part ha hb hs⟩

theorem claim8_idempotent_witness :
    checkDomain (cookPart (minimalSet [canon "example.com", canon "x.example.com"]))
      (canon "example.com") = true :=
  (claim8_idempotent [canon "example.com", canon "x.example.com"]).1
    (canon "example.com") (by decide)

/-- C9 (amended): the loading phase of the main block list fails exactly on a
line that does not contain the host pattern `0.0.0.0 ` (a Go panic on the nil
submatch) or whose captured domain is empty (a returned error); a domain with
a single label is NOT rejected — the prepended dot makes it parse. -/
theorem claim9_read_errors (lines : List Str) :
    (∃ err, readDomains lines = Except.error err) ↔
      ∃ line ∈ lines, findHostMatch line = none ∨ findHostMatch line = some [] :=
  readDomains_foldl_error_iff lines []

/-- C9 counterexample: the single-label line `0.0.0.0 com` is accepted, not
rejected: it lands in partition `.com` as domain `.com`, although its raw
domain has only one label. -/
theorem claim9_counterexample :
    readDomains ["0.0.0.0 com".toList] =
        Except.ok [(".com".toList, [canon "com"])] ∧
      (splitOnDot "com".toList).length = 1 := ⟨rfl, by decide⟩

/-- C10: `applyWhitelistEntry` never adds a domain to any partition, leaves
every partition other than the entry's own untouched, and at most inserts the
entry itself into the Override Set (keeping all previous members). -/
theorem claim10_frame (entry : Str) (domainsRaw : Partitions) (whitelist : List Str) :
    (∀ k, k ≠ getTLD entry →
      getPart (applyWhitelistEntry entry domainsRaw whitelist).1 k = getPart domainsRaw k) ∧
      (∀ k d, d ∈ getPart (applyWhitelistEntry entry domainsRaw whitelist).1 k →
        d ∈ getPart domainsRaw k) ∧
      (∀ x ∈ (applyWhitelistEntry entry domainsRaw whitelist).2,
        x ∈ whitelist ∨ x = entry) ∧
      (∀ x ∈ whitelist, x ∈ (applyWhitelistEntry entry domainsRaw whitelist).2) := by
  refine ⟨?_, ?_, ?_, ?_⟩
  · intro k hk
    rw [applyWhitelistEntry_fst, if_neg hk]
  · intro k d hd
    rw [applyWhitelistEntry_fst] at hd
    by_cases hk : k = getTLD entry
    · rw [if_pos hk] at hd
      exact (List.mem_filter.mp hd).1
    · rw [if_neg hk] at hd
      exact hd
  · intro x hx
    rw [applyWhitelistEntry_snd] at hx
    by_cases hmark : markLoop entry (getPart domainsRaw (getTLD entry)) false = true
    · rw [if_pos hmark] at hx
      rcases List.mem_insert_iff.mp hx with h | h
      · exact Or.inr h
      · exact Or.inl h
    · rw [if_neg hmark] at hx
      exact Or.inl hx
  · intro x hx
    rw [applyWhitelistEntry_snd]
    by_cases hmark : markLoop entry (getPart domainsRaw (getTLD entry)) false = true
    · rw [if_pos hmark]
      exact List.mem_insert_of_mem hx
    · rw [if_neg hmark]
      exact hx

theorem claim10_frame_witness :
    getPart (applyWhitelistEntry (canon "x.example.com")
        [("example.com".toList, [canon "example.com"]), ("b.com".toList, [canon "b.com"])]
        []).1 ("b.com".toList) =
      getPart [("example.com".toList, [canon "example.com"]),
        ("b.com".toList, [canon "b.com"])] ("b.com".toList) :=
  (claim10_frame (canon "x.example.com")
    [("example.com".toList, [canon "example.com"]), ("b.com".toList, [canon "b.com"])]
    []).1 ("b.com".toList) (by decide)

theorem claim4_boundary_safety_witness :
    hasSuffix (canon "a.example.com") (canon "example.com") = true ↔
      splitOnDot ("example.com".toList) <:+ splitOnDot ("a.example.com".toList) :=
  claim4_boundary_safety.1 ("a.example.com".toList) ("example.com".toList)

theorem claim9_read_errors_witness :
    ∃ err, readDomains ["bad line".toList] = Except.error err :=
  (claim9_read_errors ["bad line".toList]).mpr ⟨"bad line".toList, by decide, by decide⟩
